import Mathlib

/-!
Verification of the alignment-relationship analysis engine of
`parse_blat-output.py` (`process_psl_file`): a shallow embedding of the
record model and of the five derived reports, together with proofs of the
specified properties.
-/

/-- One parsed PSL row, all 21 columns as raw strings, exactly as the
source builds its dataframe from `line.strip().split("\t")` with the
column list of `parse_blat-output.py` (`matchesCol` embeds the source
column named "matches", a reserved word here). The engine consumes
`qName` (probe id), `tName` (target id) and `blockCount`. -/
structure AlignmentRecord where
  matchesCol : String
  misMatches : String
  repMatches : String
  nCount : String
  qNumInsert : String
  qBaseInsert : String
  tNumInsert : String
  tBaseInsert : String
  strand : String
  qName : String
  qSize : String
  qStart : String
  qEnd : String
  tName : String
  tSize : String
  tStart : String
  tEnd : String
  blockCount : String
  blockSizes : String
  qStarts : String
  tStarts : String
deriving DecidableEq, Repr

/-- Helper building a record from the three fields the engine consumes,
with every other column blank. -/
def mkRec (q t bc : String) : AlignmentRecord :=
  ⟨"", "", "", "", "", "", "", "", "", q, "", "", "", t, "", "", "", bc, "", "", ""⟩

/-- Whitespace as stripped by Python `int(str)` before parsing. -/
def isPySpace (c : Char) : Bool :=
  c == ' ' || c == '\t' || c == '\n' || c == '\r' || c == '\x0b' || c == '\x0c'

/-- Digit-string value, most significant first. -/
def digitsToNat (l : List Char) : Nat :=
  l.foldl (fun n c => n * 10 + (c.toNat - 48)) 0

/-- Model of the conversion `df["blockCount"].astype(int)` applied to one
cell, i.e. Python `int(str)`: strip surrounding whitespace, an optional
sign, then a nonempty run of decimal digits; anything else raises. -/
def pyParseInt (s : String) : Option Int :=
  let t := ((s.data.dropWhile isPySpace).reverse.dropWhile isPySpace).reverse
  match t with
  | '-' :: rest =>
    if rest ≠ [] ∧ rest.all Char.isDigit then some (-(digitsToNat rest : Int)) else none
  | '+' :: rest =>
    if rest ≠ [] ∧ rest.all Char.isDigit then some ((digitsToNat rest : Int)) else none
  | rest =>
    if rest ≠ [] ∧ rest.all Char.isDigit then some ((digitsToNat rest : Int)) else none

/-- The `(qName, tName)` pair of each row, in row order: the probe/target
relation before deduplication. -/
def pairsOf (records : List AlignmentRecord) : List (String × String) :=
  records.map fun r => (r.qName, r.tName)

/-- Code-point comparison of character lists, deciding the
lexicographic order `List.lt` underlying the order on `String`. -/
def dataLtb : List Char → List Char → Bool
  | [], [] => false
  | [], _ :: _ => true
  | _ :: _, [] => false
  | a :: as, b :: bs =>
    if a < b then true
    else if b < a then false
    else dataLtb as bs

/-- `dataLtb` decides `List.lt`. -/
def dataLtb_iff : ∀ a b : List Char, dataLtb a b = true ↔ List.lt a b
  | [], [] => by
    simp only [dataLtb]
    exact ⟨nofun, nofun⟩
  | [], b :: bs => by
    simp only [dataLtb]
    exact ⟨fun _ => List.lt.nil _ _, fun _ => trivial⟩
  | a :: as, [] => by
    simp only [dataLtb]
    exact ⟨nofun, nofun⟩
  | a :: as, b :: bs => by
    simp only [dataLtb]
    by_cases h₁ : a < b
    · rw [if_pos h₁]
      exact ⟨fun _ => List.lt.head _ _ h₁, fun _ => rfl⟩
    · rw [if_neg h₁]
      by_cases h₂ : b < a
      · rw [if_pos h₂]
        constructor
        · intro h
          cases h
        · intro h
          cases h with
          | head _ _ h' => exact absurd h' h₁
          | tail _ h' _ => exact absurd h₂ h'
      · rw [if_neg h₂]
        rw [dataLtb_iff as bs]
        constructor
        · intro h
          exact List.lt.tail h₁ h₂ h
        · intro h
          cases h with
          | head _ _ h' => exact absurd h' h₁
          | tail _ _ h' => exact h'

/-- `dataLtb` on the character data decides `<` on strings. -/
def dataLtb_iff_str (x y : String) : dataLtb x.data y.data = true ↔ x < y := by
  rw [dataLtb_iff, String.lt_iff_toList_lt]
  exact List.lt_iff_lex_lt _ _

/-- A `Decidable` instance for `≤` on strings that the kernel can
evaluate, used by the sorting embedded from the source. -/
instance strDecLE : DecidableRel ((· ≤ ·) : String → String → Prop) := fun a b =>
  if h : dataLtb b.data a.data = true then
    .isFalse fun hle => hle ((dataLtb_iff_str b a).mp h)
  else
    .isTrue fun hlt => h ((dataLtb_iff_str b a).mpr hlt)

/-- Lexicographic sort of a list of strings, as Python `sorted` and the
sorted group keys of `DataFrame.groupby`. -/
def sortStrings (l : List String) : List String :=
  List.insertionSort (· ≤ ·) l

/-- The sorted distinct keys of a column: the index produced by
`groupby` on that column. -/
def groupKeys (l : List String) : List String :=
  sortStrings l.dedup

/-- The second components of the pairs whose first component is `k`: the
values of group `k` in a groupby on the first component. -/
def valuesFor (pairs : List (String × String)) (k : String) : List String :=
  (pairs.filter fun pr => decide (pr.1 = k)).map Prod.snd

/-- Python set equality (`x == all_targets`) on lists viewed as sets. -/
def listSetEq (a b : List String) : Bool :=
  (a.all fun x => decide (x ∈ b)) && (b.all fun x => decide (x ∈ a))

/-- The five reports of `process_psl_file`, in source order; each is the
ordered row sequence of one output CSV. -/
structure Reports where
  targetCounts : List (String × Nat)
  probeCounts : List (String × Nat)
  probeToTargets : List (String × String)
  targetToProbes : List (String × String)
  universalProbes : List String
deriving DecidableEq, Repr

/-- The report derivation of `process_psl_file` from the (already
type-checked) rows, as pure projections of the pair list:
* `targetCounts`: `df.groupby("tName")["qName"].nunique()`;
* `probeCounts`: `df.groupby("qName")["tName"].nunique()`;
* `probeToTargets`: `groupby("qName")["tName"].apply(lambda x: ", ".join(sorted(set(x))))`;
* `targetToProbes`: the symmetric join;
* `universalProbes`: the group keys whose target set equals `all_targets`. -/
def buildReports (pairs : List (String × String)) : Reports :=
  let spairs := pairs.map Prod.swap
  let probes := groupKeys (pairs.map Prod.fst)
  let targets := groupKeys (pairs.map Prod.snd)
  let all_targets := (pairs.map Prod.snd).dedup
  { targetCounts := targets.map fun t => (t, ((valuesFor spairs t).dedup).length)
    probeCounts := probes.map fun p => (p, ((valuesFor pairs p).dedup).length)
    probeToTargets := probes.map fun p =>
      (p, String.intercalate ", " (sortStrings (valuesFor pairs p).dedup))
    targetToProbes := targets.map fun t =>
      (t, String.intercalate ", " (sortStrings (valuesFor spairs t).dedup))
    universalProbes := probes.filter fun p => listSetEq (valuesFor pairs p).dedup all_targets }

/-- The single fatal error of the engine: a `blockCount` cell that does
not parse as an integer (`ValueError` from `astype(int)`). -/
inductive MalformedRecordError where
  | malformed : MalformedRecordError
deriving DecidableEq, Repr

/-- The engine of `process_psl_file` on parsed rows: force the integer
conversion of every `blockCount` (line 27 of the source, before any
report is produced) and, when every cell parses, derive the five
reports; a single unparseable cell aborts the whole batch with no
output. -/
def process_psl_file (records : List AlignmentRecord) :
    Except MalformedRecordError Reports :=
  if records.all (fun r => (pyParseInt r.blockCount).isSome) then
    .ok (buildReports (pairsOf records))
  else
    .error .malformed

instance : DecidableEq (Except MalformedRecordError Reports)
  | .ok a, .ok b =>
    if h : a = b then .isTrue (by rw [h]) else .isFalse (by intro hc; cases hc; exact h rfl)
  | .error a, .error b =>
    if h : a = b then .isTrue (by rw [h]) else .isFalse (by intro hc; cases hc; exact h rfl)
  | .ok _, .error _ => .isFalse (by intro hc; cases hc)
  | .error _, .ok _ => .isFalse (by intro hc; cases hc)

/-- The probe-id column, in row order; a probe id is observed iff it is a
member of this list. -/
def observedProbes (records : List AlignmentRecord) : List String :=
  records.map fun r => r.qName

/-- The target-id column, in row order; a target id is observed iff it is
a member of this list. -/
def observedTargets (records : List AlignmentRecord) : List String :=
  records.map fun r => r.tName

/-- The set of distinct probe ids aligned to a given target, as a finite
set: the specification-level reading of "distinct probes aligning to it". -/
def probesAligningTo (records : List AlignmentRecord) (t : String) : Finset String :=
  ((pairsOf records).toFinset.filter fun x => x.2 = t).image Prod.fst

/-- The set of distinct target ids a given probe aligns to, as a finite
set: the specification-level reading of "distinct targets it aligns to". -/
def targetsAlignedBy (records : List AlignmentRecord) (p : String) : Finset String :=
  ((pairsOf records).toFinset.filter fun x => x.1 = p).image Prod.snd

/-- Prefix a character onto the first chunk of a split. -/
def consHead (c : Char) : List (List Char) → List (List Char)
  | [] => [[c]]
  | h :: t => (c :: h) :: t

/-- Leftmost split of a character list at each occurrence of the
two-character separator `", "`: the character-level meaning of the
specification phrase "comma-separated entries" of a report value. -/
def splitSep : List Char → List (List Char)
  | [] => [[]]
  | [c] => [[c]]
  | c₁ :: c₂ :: rest =>
    if c₁ = ',' ∧ c₂ = ' ' then [] :: splitSep rest
    else consHead c₁ (splitSep (c₂ :: rest))

/-- The comma-separated entries of a report value. -/
def commaEntries (s : String) : List String :=
  (splitSep s.data).map fun l => String.mk l

/-- A string that does not contain the separator `", "`: splitting it
returns the string whole. -/
def sepFree (s : String) : Prop :=
  splitSep s.data = [s.data]

instance (s : String) : Decidable (sepFree s) :=
  inferInstanceAs (Decidable (splitSep s.data = [s.data]))

/-- Character-level join with a separator: the list computed by
`String.intercalate` seen on `data`. -/
def joinSep (sep : List Char) : List (List Char) → List Char
  | [] => []
  | [a] => a
  | a :: rest => a ++ sep ++ joinSep sep rest

/-- An input whose probe id `"b, c"` contains the join separator `", "`,
used to probe the comma-separated-entries properties. -/
def sepRecords : List AlignmentRecord :=
  [mkRec "b, c" "t" "1", mkRec "a" "t" "1"]

/-- The engine output on `sepRecords`. -/
def sepReports : Reports :=
  ⟨[("t", 2)], [("a", 1), ("b, c", 1)], [("a", "t"), ("b, c", "t")],
    [("t", "a, b, c")], ["a", "b, c"]⟩

theorem mem_probesAligningTo {records : List AlignmentRecord} {t q : String} :
    q ∈ probesAligningTo records t ↔ (q, t) ∈ pairsOf records := by
  simp only [probesAligningTo, Finset.mem_image, Finset.mem_filter, List.mem_toFinset]
  constructor
  · rintro ⟨⟨a, b⟩, ⟨hmem, hb⟩, ha⟩
    cases ha; cases hb; exact hmem
  · intro h
    exact ⟨(q, t), ⟨h, rfl⟩, rfl⟩

theorem mem_targetsAlignedBy {records : List AlignmentRecord} {p u : String} :
    u ∈ targetsAlignedBy records p ↔ (p, u) ∈ pairsOf records := by
  simp only [targetsAlignedBy, Finset.mem_image, Finset.mem_filter, List.mem_toFinset]
  constructor
  · rintro ⟨⟨a, b⟩, ⟨hmem, ha⟩, hb⟩
    cases ha; cases hb; exact hmem
  · intro h
    exact ⟨(p, u), ⟨h, rfl⟩, rfl⟩

theorem mem_map_swap {l : List (String × String)} {a b : String} :
    (a, b) ∈ l.map Prod.swap ↔ (b, a) ∈ l := by
  simp only [List.mem_map, Prod.ext_iff]
  constructor
  · rintro ⟨⟨x, y⟩, hmem, hx, hy⟩
    simp only [Prod.swap] at hx hy
    cases hx; cases hy; exact hmem
  · intro h
    exact ⟨(b, a), h, rfl, rfl⟩

theorem mem_valuesFor {pairs : List (String × String)} {k t : String} :
    t ∈ valuesFor pairs k ↔ (k, t) ∈ pairs := by
  simp only [valuesFor, List.mem_map, List.mem_filter, decide_eq_true_eq]
  constructor
  · rintro ⟨⟨a, b⟩, ⟨hmem, hk⟩, hb⟩
    cases hk; cases hb; exact hmem
  · intro h
    exact ⟨(k, t), ⟨h, rfl⟩, rfl⟩

theorem sortStrings_perm (l : List String) : List.Perm (sortStrings l) l :=
  List.perm_insertionSort _ _

theorem sortStrings_sorted (l : List String) : (sortStrings l).Sorted (· ≤ ·) :=
  List.sorted_insertionSort _ _

theorem mem_sortStrings {l : List String} {x : String} : x ∈ sortStrings l ↔ x ∈ l :=
  (sortStrings_perm l).mem_iff

theorem mem_groupKeys {l : List String} {x : String} : x ∈ groupKeys l ↔ x ∈ l := by
  rw [groupKeys, mem_sortStrings, List.mem_dedup]

theorem groupKeys_sorted (l : List String) : (groupKeys l).Sorted (· ≤ ·) :=
  sortStrings_sorted _

theorem groupKeys_nodup (l : List String) : (groupKeys l).Nodup :=
  ((sortStrings_perm l.dedup).nodup_iff).mpr l.nodup_dedup

theorem sorted_nodup_ext {l₁ l₂ : List String}
    (s₁ : l₁.Sorted (· ≤ ·)) (s₂ : l₂.Sorted (· ≤ ·)) (n₁ : l₁.Nodup) (n₂ : l₂.Nodup)
    (h : ∀ x, x ∈ l₁ ↔ x ∈ l₂) : l₁ = l₂ :=
  List.eq_of_perm_of_sorted ((List.perm_ext_iff_of_nodup n₁ n₂).mpr h) s₁ s₂

theorem groupKeys_ext {a b : List String} (h : ∀ x, x ∈ a ↔ x ∈ b) :
    groupKeys a = groupKeys b :=
  sorted_nodup_ext (groupKeys_sorted a) (groupKeys_sorted b) (groupKeys_nodup a)
    (groupKeys_nodup b) (fun x => by rw [mem_groupKeys, mem_groupKeys]; exact h x)

theorem listSetEq_iff {a b : List String} :
    listSetEq a b = true ↔ (∀ x, x ∈ a ↔ x ∈ b) := by
  simp only [listSetEq, Bool.and_eq_true, List.all_eq_true, decide_eq_true_eq]
  constructor
  · rintro ⟨h₁, h₂⟩ x
    exact ⟨fun hx => h₁ x hx, fun hx => h₂ x hx⟩
  · intro h
    exact ⟨fun x hx => (h x).1 hx, fun x hx => (h x).2 hx⟩

theorem buildReports_targetCounts (pairs : List (String × String)) :
    (buildReports pairs).targetCounts =
      (groupKeys (pairs.map Prod.snd)).map
        (fun t => (t, ((valuesFor (pairs.map Prod.swap) t).dedup).length)) := rfl

theorem buildReports_probeCounts (pairs : List (String × String)) :
    (buildReports pairs).probeCounts =
      (groupKeys (pairs.map Prod.fst)).map
        (fun p => (p, ((valuesFor pairs p).dedup).length)) := rfl

theorem buildReports_probeToTargets (pairs : List (String × String)) :
    (buildReports pairs).probeToTargets =
      (groupKeys (pairs.map Prod.fst)).map
        (fun p => (p, String.intercalate ", " (sortStrings (valuesFor pairs p).dedup))) := rfl

theorem buildReports_targetToProbes (pairs : List (String × String)) :
    (buildReports pairs).targetToProbes =
      (groupKeys (pairs.map Prod.snd)).map
        (fun t => (t, String.intercalate ", " (sortStrings (valuesFor (pairs.map Prod.swap) t).dedup))) := rfl

theorem buildReports_universalProbes (pairs : List (String × String)) :
    (buildReports pairs).universalProbes =
      (groupKeys (pairs.map Prod.fst)).filter
        (fun p => listSetEq (valuesFor pairs p).dedup ((pairs.map Prod.snd).dedup)) := rfl

theorem process_ok_iff {records : List AlignmentRecord} {rep : Reports} :
    process_psl_file records = .ok rep ↔
      (∀ r ∈ records, (pyParseInt r.blockCount).isSome) ∧
        rep = buildReports (pairsOf records) := by
  unfold process_psl_file
  by_cases hall : records.all (fun r => (pyParseInt r.blockCount).isSome) = true
  · rw [if_pos hall]
    simp only [List.all_eq_true] at hall
    constructor
    · intro h
      cases h
      exact ⟨hall, rfl⟩
    · rintro ⟨-, rfl⟩
      rfl
  · rw [if_neg hall]
    simp only [List.all_eq_true] at hall
    constructor
    · intro h
      cases h
    · rintro ⟨h, -⟩
      exact absurd h hall

theorem dedup_length_ext {l₁ l₂ : List String} (h : ∀ x, x ∈ l₁ ↔ x ∈ l₂) :
    l₁.dedup.length = l₂.dedup.length := by
  have h2 := congrArg List.length (groupKeys_ext h)
  rwa [groupKeys, groupKeys, (sortStrings_perm _).length_eq,
    (sortStrings_perm _).length_eq] at h2

theorem listSetEq_congr {a₁ a₂ b₁ b₂ : List String}
    (ha : ∀ x, x ∈ a₁ ↔ x ∈ a₂) (hb : ∀ x, x ∈ b₁ ↔ x ∈ b₂) :
    listSetEq a₁ b₁ = listSetEq a₂ b₂ := by
  have hiff : (listSetEq a₁ b₁ = true) ↔ (listSetEq a₂ b₂ = true) := by
    rw [listSetEq_iff, listSetEq_iff]
    constructor
    · intro hx x
      rw [← ha x, ← hb x]
      exact hx x
    · intro hx x
      rw [ha x, hb x]
      exact hx x
  cases h1 : listSetEq a₁ b₁ <;> cases h2 : listSetEq a₂ b₂ <;> simp_all

/-- The five reports are pure functions of the set of distinct
`(probe, target)` pairs: pair lists with the same members yield
identical reports. -/
theorem buildReports_ext {p₁ p₂ : List (String × String)}
    (h : ∀ x, x ∈ p₁ ↔ x ∈ p₂) : buildReports p₁ = buildReports p₂ := by
  have hfst : ∀ x, x ∈ p₁.map Prod.fst ↔ x ∈ p₂.map Prod.fst := by
    intro x
    simp only [List.mem_map]
    constructor
    · rintro ⟨a, hm, rfl⟩
      exact ⟨a, (h a).1 hm, rfl⟩
    · rintro ⟨a, hm, rfl⟩
      exact ⟨a, (h a).2 hm, rfl⟩
  have hsnd : ∀ x, x ∈ p₁.map Prod.snd ↔ x ∈ p₂.map Prod.snd := by
    intro x
    simp only [List.mem_map]
    constructor
    · rintro ⟨a, hm, rfl⟩
      exact ⟨a, (h a).1 hm, rfl⟩
    · rintro ⟨a, hm, rfl⟩
      exact ⟨a, (h a).2 hm, rfl⟩
  have hprobes : groupKeys (p₁.map Prod.fst) = groupKeys (p₂.map Prod.fst) :=
    groupKeys_ext hfst
  have htargets : groupKeys (p₁.map Prod.snd) = groupKeys (p₂.map Prod.snd) :=
    groupKeys_ext hsnd
  have hvals : ∀ k x, x ∈ valuesFor p₁ k ↔ x ∈ valuesFor p₂ k := by
    intro k x
    rw [mem_valuesFor, mem_valuesFor]
    exact h (k, x)
  have hvalsw : ∀ k x, x ∈ valuesFor (p₁.map Prod.swap) k ↔
      x ∈ valuesFor (p₂.map Prod.swap) k := by
    intro k x
    rw [mem_valuesFor, mem_valuesFor, mem_map_swap, mem_map_swap]
    exact h (x, k)
  have hjoin : ∀ k, sortStrings (valuesFor p₁ k).dedup =
      sortStrings (valuesFor p₂ k).dedup :=
    fun k => groupKeys_ext (hvals k)
  have hjoinw : ∀ k, sortStrings (valuesFor (p₁.map Prod.swap) k).dedup =
      sortStrings (valuesFor (p₂.map Prod.swap) k).dedup :=
    fun k => groupKeys_ext (hvalsw k)
  have hlen : ∀ k, (valuesFor p₁ k).dedup.length = (valuesFor p₂ k).dedup.length :=
    fun k => dedup_length_ext (hvals k)
  have hlenw : ∀ k, (valuesFor (p₁.map Prod.swap) k).dedup.length =
      (valuesFor (p₂.map Prod.swap) k).dedup.length :=
    fun k => dedup_length_ext (hvalsw k)
  have hud : ∀ k, listSetEq (valuesFor p₁ k).dedup ((p₁.map Prod.snd).dedup) =
      listSetEq (valuesFor p₂ k).dedup ((p₂.map Prod.snd).dedup) := by
    intro k
    refine listSetEq_congr (fun x => ?_) (fun x => ?_)
    · rw [List.mem_dedup, List.mem_dedup]
      exact hvals k x
    · rw [List.mem_dedup, List.mem_dedup]
      exact hsnd x
  simp only [buildReports]
  rw [hprobes, htargets]
  congr 1
  · exact List.map_congr_left fun t _ => by rw [hlenw t]
  · exact List.map_congr_left fun p _ => by rw [hlen p]
  · exact List.map_congr_left fun p _ => by rw [hjoin p]
  · exact List.map_congr_left fun t _ => by rw [hjoinw t]
  · exact List.filter_congr fun p _ => by rw [hud p]

theorem splitSep_ne_nil (l : List Char) : splitSep l ≠ [] := by
  match l with
  | [] => simp [splitSep]
  | [c] => simp [splitSep]
  | c₁ :: c₂ :: rest =>
    simp only [splitSep]
    split
    · simp
    · cases splitSep (c₂ :: rest) with
      | nil => simp [consHead]
      | cons h t => simp [consHead]

theorem splitSep_append (b : List Char) :
    ∀ a : List Char, splitSep a = [a] →
      splitSep (a ++ ',' :: ' ' :: b) = a :: splitSep b := by
  intro a
  induction a using splitSep.induct with
  | case1 =>
    intro _
    simp [splitSep]
  | case2 c =>
    intro _
    show splitSep (c :: ',' :: ' ' :: b) = [c] :: splitSep b
    rw [splitSep]
    rw [if_neg (by simp)]
    rw [splitSep]
    rw [if_pos ⟨rfl, rfl⟩]
    rfl
  | case3 c₁ c₂ rest hif ih =>
    intro h
    rw [splitSep, if_pos hif] at h
    exact absurd (List.cons.injEq _ _ _ _ ▸ h) (by simp)
  | case4 c₁ c₂ rest hif ih =>
    intro h
    rw [splitSep, if_neg hif] at h
    have hne := splitSep_ne_nil (c₂ :: rest)
    cases hsp : splitSep (c₂ :: rest) with
    | nil => exact absurd hsp hne
    | cons h' t' =>
      rw [hsp] at h
      simp only [consHead, List.cons.injEq] at h
      obtain ⟨⟨-, hh⟩, ht⟩ := h
      have hx : splitSep (c₂ :: rest) = [c₂ :: rest] := by rw [hsp, hh, ht]
      have hk := ih hx
      show splitSep (c₁ :: c₂ :: (rest ++ ',' :: ' ' :: b)) = (c₁ :: c₂ :: rest) :: splitSep b
      rw [splitSep, if_neg hif]
      have : c₂ :: (rest ++ ',' :: ' ' :: b) = (c₂ :: rest) ++ ',' :: ' ' :: b := rfl
      rw [this, hk]
      rfl

theorem splitSep_joinSep :
    ∀ l : List (List Char), l ≠ [] → (∀ a ∈ l, splitSep a = [a]) →
      splitSep (joinSep [',', ' '] l) = l := by
  intro l
  induction l with
  | nil => intro h; exact absurd rfl h
  | cons a rest ih =>
    intro _ hf
    cases rest with
    | nil =>
      show splitSep (joinSep [',', ' '] [a]) = [a]
      have : joinSep [',', ' '] [a] = a := by simp [joinSep]
      rw [this]
      exact hf a (by simp)
    | cons a₂ rest₂ =>
      have hj : joinSep [',', ' '] (a :: a₂ :: rest₂) =
          a ++ ',' :: ' ' :: joinSep [',', ' '] (a₂ :: rest₂) := by
        simp [joinSep]
      rw [hj, splitSep_append _ a (hf a (by simp)),
        ih (by simp) (fun x hx => hf x (by simp [hx]))]

theorem joinSep_cons_append (sep x y : List Char) (t : List (List Char)) :
    joinSep sep ((x ++ sep ++ y) :: t) = x ++ sep ++ joinSep sep (y :: t) := by
  cases t with
  | nil => simp [joinSep]
  | cons h t' => simp [joinSep, List.append_assoc]

theorem intercalate_go_data (s : String) :
    ∀ (as : List String) (acc : String),
      (String.intercalate.go acc s as).data =
        joinSep s.data (acc.data :: as.map String.data) := by
  intro as
  induction as with
  | nil =>
    intro acc
    show (String.intercalate.go acc s []).data = joinSep s.data [acc.data]
    have h1 : String.intercalate.go acc s [] = acc := rfl
    have h2 : joinSep s.data [acc.data] = acc.data := by simp [joinSep]
    rw [h1, h2]
  | cons a as' ih =>
    intro acc
    have h1 : String.intercalate.go acc s (a :: as') =
        String.intercalate.go (acc ++ s ++ a) s as' := rfl
    rw [h1, ih]
    have h2 : (acc ++ s ++ a).data = acc.data ++ s.data ++ a.data := by
      simp [String.data_append]
    rw [h2, joinSep_cons_append]
    have h3 : joinSep s.data (acc.data :: a.data :: as'.map String.data) =
        acc.data ++ s.data ++ joinSep s.data (a.data :: as'.map String.data) := by
      simp [joinSep]
    rw [List.map_cons, h3]

theorem intercalate_data (s : String) (l : List String) :
    (String.intercalate s l).data = joinSep s.data (l.map String.data) := by
  cases l with
  | nil => rfl
  | cons a as =>
    have h1 : String.intercalate s (a :: as) = String.intercalate.go a s as := rfl
    rw [h1, intercalate_go_data, List.map_cons]

theorem commaEntries_intercalate (l : List String) (hne : l ≠ [])
    (hf : ∀ s ∈ l, sepFree s) :
    commaEntries (String.intercalate ", " l) = l := by
  unfold commaEntries
  rw [intercalate_data]
  have hsep : (", " : String).data = [',', ' '] := rfl
  rw [hsep]
  have hf' : ∀ a ∈ l.map String.data, splitSep a = [a] := by
    intro a ha
    obtain ⟨s, hs, rfl⟩ := List.mem_map.mp ha
    exact hf s hs
  rw [splitSep_joinSep _ (by simpa using hne) hf']
  rw [List.map_map]
  apply List.map_id'

theorem commaEntries_length_intercalate (l : List String) (hne : l ≠ [])
    (hf : ∀ s ∈ l, sepFree s) :
    (commaEntries (String.intercalate ", " l)).length = l.length := by
  rw [commaEntries_intercalate l hne hf]

/-- C2: a record whose `blockCount` field does not parse as an integer is
fatal for the whole batch: the engine returns `MalformedRecordError` and
none of the five reports is produced; the record is not silently
skipped. -/
theorem malformed_blockCount_fatal (records : List AlignmentRecord)
    (h : ∃ r ∈ records, pyParseInt r.blockCount = none) :
    process_psl_file records = .error .malformed := by
  obtain ⟨r, hr, hnone⟩ := h
  unfold process_psl_file
  rw [if_neg]
  intro hall
  rw [List.all_eq_true] at hall
  have hsome := hall r hr
  rw [hnone] at hsome
  simp at hsome

theorem malformed_blockCount_fatal_witness :
    (∃ r ∈ [mkRec "p1" "t1" "3", mkRec "p2" "t2" "NA"], pyParseInt r.blockCount = none) ∧
      process_psl_file [mkRec "p1" "t1" "3", mkRec "p2" "t2" "NA"] = .error .malformed :=
  ⟨by decide, malformed_blockCount_fatal _ (by decide)⟩

/-- C3: the empty record sequence is processed without error and every
one of the five reports is the empty sequence. -/
theorem empty_input_all_reports_empty :
    process_psl_file [] = .ok ⟨[], [], [], [], []⟩ := by
  decide

/-- C9: the engine is deterministic: two runs on the same input record
sequence produce the same outcome, hence identical report rows in
identical order. -/
theorem engine_deterministic (records : List AlignmentRecord)
    (out₁ out₂ : Except MalformedRecordError Reports)
    (h₁ : out₁ = process_psl_file records) (h₂ : out₂ = process_psl_file records) :
    out₁ = out₂ :=
  h₁.trans h₂.symm

theorem engine_deterministic_witness :
    process_psl_file [mkRec "p1" "t1" "11"] = process_psl_file [mkRec "p1" "t1" "11"] :=
  engine_deterministic [mkRec "p1" "t1" "11"] _ _ rfl rfl

/-- C6: duplicated `(probe, target)` pairs contribute exactly once to
every derived report: any two record sequences with the same set of
distinct pairs (in particular a sequence and its pair-deduplicated
version) yield the same five derived reports. -/
theorem duplicate_pairs_contribute_once (r₁ r₂ : List AlignmentRecord)
    (h : (pairsOf r₁).toFinset = (pairsOf r₂).toFinset) :
    buildReports (pairsOf r₁) = buildReports (pairsOf r₂) ∧
      buildReports ((pairsOf r₁).dedup) = buildReports (pairsOf r₁) :=
  ⟨buildReports_ext fun x => by rw [← List.mem_toFinset, ← List.mem_toFinset, h],
    buildReports_ext fun _ => List.mem_dedup⟩

theorem duplicate_pairs_contribute_once_witness :
    (pairsOf [mkRec "p1" "t1" "1", mkRec "p1" "t1" "2", mkRec "p2" "t1" "3"]).toFinset =
        (pairsOf [mkRec "p1" "t1" "1", mkRec "p2" "t1" "3"]).toFinset ∧
      buildReports (pairsOf [mkRec "p1" "t1" "1", mkRec "p1" "t1" "2", mkRec "p2" "t1" "3"]) =
          buildReports (pairsOf [mkRec "p1" "t1" "1", mkRec "p2" "t1" "3"]) ∧
        buildReports ((pairsOf [mkRec "p1" "t1" "1", mkRec "p1" "t1" "2", mkRec "p2" "t1" "3"]).dedup) =
          buildReports (pairsOf [mkRec "p1" "t1" "1", mkRec "p1" "t1" "2", mkRec "p2" "t1" "3"]) :=
  ⟨by decide, duplicate_pairs_contribute_once _ _ (by decide)⟩

/-- C10: the five reports factor through the set of distinct
`(probe, target)` pairs: two record sequences in which every
`blockCount` parses and which yield the same pair set — regardless of
record order, of the `blockCount` values themselves (negative included)
and of every other non-identifier column — produce identical engine
output. -/
theorem reports_factor_through_pair_set (r₁ r₂ : List AlignmentRecord)
    (h₁ : ∀ r ∈ r₁, (pyParseInt r.blockCount).isSome)
    (h₂ : ∀ r ∈ r₂, (pyParseInt r.blockCount).isSome)
    (h : (pairsOf r₁).toFinset = (pairsOf r₂).toFinset) :
    process_psl_file r₁ = process_psl_file r₂ := by
  have hb : buildReports (pairsOf r₁) = buildReports (pairsOf r₂) :=
    buildReports_ext fun x => by rw [← List.mem_toFinset, ← List.mem_toFinset, h]
  rw [process_ok_iff.mpr ⟨h₁, rfl⟩, process_ok_iff.mpr ⟨h₂, rfl⟩, hb]

theorem reports_factor_through_pair_set_witness :
    (∀ r ∈ [mkRec "p1" "t1" "7", mkRec "p1" "t2" "8"], (pyParseInt r.blockCount).isSome) ∧
      (∀ r ∈ [{ mkRec "p1" "t2" "-3" with strand := "+" }, mkRec "p1" "t1" "5",
          mkRec "p1" "t1" "5"], (pyParseInt r.blockCount).isSome) ∧
        process_psl_file [mkRec "p1" "t1" "7", mkRec "p1" "t2" "8"] =
          process_psl_file [{ mkRec "p1" "t2" "-3" with strand := "+" }, mkRec "p1" "t1" "5",
            mkRec "p1" "t1" "5"] :=
  ⟨by decide, by decide, reports_factor_through_pair_set _ _ (by decide) (by decide) (by decide)⟩

theorem pairs_fst_eq (records : List AlignmentRecord) :
    (pairsOf records).map Prod.fst = observedProbes records := by
  simp [pairsOf, observedProbes, List.map_map]

theorem pairs_snd_eq (records : List AlignmentRecord) :
    (pairsOf records).map Prod.snd = observedTargets records := by
  simp [pairsOf, observedTargets, List.map_map]

theorem map_fst_key_map {β : Type} (keys : List String) (f : String → β) :
    (keys.map fun k => (k, f k)).map Prod.fst = keys := by
  rw [List.map_map]
  apply List.map_id'

theorem mem_key_map {β : Type} {keys : List String} {f : String → β}
    {k : String} {v : β} :
    (k, v) ∈ keys.map (fun x => (x, f x)) ↔ k ∈ keys ∧ v = f k := by
  simp only [List.mem_map, Prod.mk.injEq]
  constructor
  · rintro ⟨x, hx, rfl, rfl⟩
    exact ⟨hx, rfl⟩
  · rintro ⟨hk, rfl⟩
    exact ⟨k, hk, rfl, rfl⟩

theorem mem_pairsOf {records : List AlignmentRecord} {p t : String} :
    (p, t) ∈ pairsOf records ↔ ∃ r ∈ records, r.qName = p ∧ r.tName = t := by
  simp [pairsOf, List.mem_map, Prod.ext_iff]

theorem targetCounts_card (records : List AlignmentRecord) (t : String) :
    (probesAligningTo records t).card =
      (valuesFor ((pairsOf records).map Prod.swap) t).dedup.length := by
  rw [← List.card_toFinset]
  congr 1
  ext q
  rw [List.mem_toFinset, mem_valuesFor, mem_map_swap, mem_probesAligningTo]

theorem probeCounts_card (records : List AlignmentRecord) (p : String) :
    (targetsAlignedBy records p).card = (valuesFor (pairsOf records) p).dedup.length := by
  rw [← List.card_toFinset]
  congr 1
  ext u
  rw [List.mem_toFinset, mem_valuesFor, mem_targetsAlignedBy]

/-- C5: `TargetCounts` maps each observed target id to the number of
distinct probes aligning to it, `ProbeCounts` maps each observed probe
id to the number of distinct targets it aligns to, and both reports are
keyed exactly by the observed ids, sorted lexicographically without
repetition. -/
theorem count_reports_distinct_cardinalities (records : List AlignmentRecord)
    (rep : Reports) (hok : process_psl_file records = .ok rep) :
    ((rep.targetCounts.map Prod.fst).Sorted (· ≤ ·) ∧
      (rep.targetCounts.map Prod.fst).Nodup ∧
      (∀ t, t ∈ rep.targetCounts.map Prod.fst ↔ t ∈ observedTargets records) ∧
      ∀ tn ∈ rep.targetCounts, tn.2 = (probesAligningTo records tn.1).card) ∧
    ((rep.probeCounts.map Prod.fst).Sorted (· ≤ ·) ∧
      (rep.probeCounts.map Prod.fst).Nodup ∧
      (∀ p, p ∈ rep.probeCounts.map Prod.fst ↔ p ∈ observedProbes records) ∧
      ∀ pn ∈ rep.probeCounts, pn.2 = (targetsAlignedBy records pn.1).card) := by
  obtain ⟨-, rfl⟩ := process_ok_iff.mp hok
  constructor
  · rw [buildReports_targetCounts, map_fst_key_map]
    refine ⟨groupKeys_sorted _, groupKeys_nodup _, fun t => ?_, fun tn htn => ?_⟩
    · rw [mem_groupKeys, pairs_snd_eq]
    · obtain ⟨t, ht, rfl⟩ := List.mem_map.mp htn
      exact (targetCounts_card records t).symm
  · rw [buildReports_probeCounts, map_fst_key_map]
    refine ⟨groupKeys_sorted _, groupKeys_nodup _, fun p => ?_, fun pn hpn => ?_⟩
    · rw [mem_groupKeys, pairs_fst_eq]
    · obtain ⟨p, hp, rfl⟩ := List.mem_map.mp hpn
      exact (probeCounts_card records p).symm

theorem count_reports_distinct_cardinalities_witness :
    (process_psl_file [mkRec "p1" "t1" "3", mkRec "p1" "t2" "4", mkRec "p2" "t1" "5"] =
      .ok (buildReports (pairsOf
        [mkRec "p1" "t1" "3", mkRec "p1" "t2" "4", mkRec "p2" "t1" "5"]))) ∧
    ∀ tn ∈ (buildReports (pairsOf
        [mkRec "p1" "t1" "3", mkRec "p1" "t2" "4", mkRec "p2" "t1" "5"])).targetCounts,
      tn.2 = (probesAligningTo
        [mkRec "p1" "t1" "3", mkRec "p1" "t2" "4", mkRec "p2" "t1" "5"] tn.1).card :=
  ⟨process_ok_iff.mpr ⟨by decide, rfl⟩,
    (count_reports_distinct_cardinalities _ _ (process_ok_iff.mpr ⟨by decide, rfl⟩)).1.2.2.2⟩

/-- C1: for a non-empty input, a probe id is listed in `UniversalProbes`
exactly when the set of targets it aligns to equals — as an unordered
set, neither subset nor superset suffices — the set of all observed
target ids; the qualifying probe ids are emitted sorted
lexicographically, without repetition. -/
theorem universalProbes_iff_hits_all_targets (records : List AlignmentRecord)
    (rep : Reports) (hne : records ≠ []) (hok : process_psl_file records = .ok rep) :
    (∀ p, p ∈ rep.universalProbes ↔
      ∀ t, ((p, t) ∈ pairsOf records ↔ t ∈ observedTargets records)) ∧
      rep.universalProbes.Sorted (· ≤ ·) ∧ rep.universalProbes.Nodup := by
  obtain ⟨-, rfl⟩ := process_ok_iff.mp hok
  rw [buildReports_universalProbes]
  refine ⟨fun p => ?_, ?_, ?_⟩
  · rw [List.mem_filter, mem_groupKeys, listSetEq_iff]
    constructor
    · rintro ⟨hmem, hiff⟩ t
      have hx := hiff t
      rwa [List.mem_dedup, List.mem_dedup, mem_valuesFor, pairs_snd_eq] at hx
    · intro hall
      have hpmem : p ∈ (pairsOf records).map Prod.fst := by
        obtain ⟨r, hr⟩ := List.exists_mem_of_ne_nil records hne
        have ht : r.tName ∈ observedTargets records :=
          List.mem_map_of_mem (fun x => x.tName) hr
        have hpt : (p, r.tName) ∈ pairsOf records := (hall r.tName).mpr ht
        exact List.mem_map_of_mem Prod.fst hpt
      refine ⟨hpmem, fun x => ?_⟩
      rw [List.mem_dedup, List.mem_dedup, mem_valuesFor, pairs_snd_eq]
      exact hall x
  · exact (groupKeys_sorted _).filter _
  · exact (groupKeys_nodup _).filter _

theorem universalProbes_iff_hits_all_targets_witness :
    ([mkRec "p1" "t1" "3", mkRec "p1" "t2" "4", mkRec "p2" "t1" "5"] ≠
        ([] : List AlignmentRecord)) ∧
    ∀ p, p ∈ (buildReports (pairsOf
        [mkRec "p1" "t1" "3", mkRec "p1" "t2" "4", mkRec "p2" "t1" "5"])).universalProbes ↔
      ∀ t, ((p, t) ∈ pairsOf [mkRec "p1" "t1" "3", mkRec "p1" "t2" "4", mkRec "p2" "t1" "5"] ↔
        t ∈ observedTargets [mkRec "p1" "t1" "3", mkRec "p1" "t2" "4", mkRec "p2" "t1" "5"]) :=
  ⟨by decide,
    (universalProbes_iff_hits_all_targets _ _ (by decide)
      (process_ok_iff.mpr ⟨by decide, rfl⟩)).1⟩

/-- C4: in `ProbeToTargets` each row's value is the string joining the
probe's distinct target ids, sorted lexicographically, with the
separator `", "`; symmetrically for `TargetToProbes`; in both reports
the rows are keyed by the observed ids, sorted lexicographically. -/
theorem listing_reports_sorted_joined (records : List AlignmentRecord)
    (rep : Reports) (hok : process_psl_file records = .ok rep) :
    ((rep.probeToTargets.map Prod.fst).Sorted (· ≤ ·) ∧
      (rep.probeToTargets.map Prod.fst).Nodup ∧
      (∀ p, p ∈ rep.probeToTargets.map Prod.fst ↔ p ∈ observedProbes records) ∧
      ∀ pv ∈ rep.probeToTargets, ∃ l : List String, l.Sorted (· ≤ ·) ∧ l.Nodup ∧
        (∀ t, t ∈ l ↔ (pv.1, t) ∈ pairsOf records) ∧
        pv.2 = String.intercalate ", " l) ∧
    ((rep.targetToProbes.map Prod.fst).Sorted (· ≤ ·) ∧
      (rep.targetToProbes.map Prod.fst).Nodup ∧
      (∀ t, t ∈ rep.targetToProbes.map Prod.fst ↔ t ∈ observedTargets records) ∧
      ∀ tv ∈ rep.targetToProbes, ∃ l : List String, l.Sorted (· ≤ ·) ∧ l.Nodup ∧
        (∀ q, q ∈ l ↔ (q, tv.1) ∈ pairsOf records) ∧
        tv.2 = String.intercalate ", " l) := by
  obtain ⟨-, rfl⟩ := process_ok_iff.mp hok
  constructor
  · rw [buildReports_probeToTargets, map_fst_key_map]
    refine ⟨groupKeys_sorted _, groupKeys_nodup _, fun p => ?_, fun pv hpv => ?_⟩
    · rw [mem_groupKeys, pairs_fst_eq]
    · obtain ⟨p, hp, rfl⟩ := List.mem_map.mp hpv
      refine ⟨sortStrings (valuesFor (pairsOf records) p).dedup,
        sortStrings_sorted _, groupKeys_nodup _, fun t => ?_, rfl⟩
      rw [mem_sortStrings, List.mem_dedup, mem_valuesFor]
  · rw [buildReports_targetToProbes, map_fst_key_map]
    refine ⟨groupKeys_sorted _, groupKeys_nodup _, fun t => ?_, fun tv htv => ?_⟩
    · rw [mem_groupKeys, pairs_snd_eq]
    · obtain ⟨t, ht, rfl⟩ := List.mem_map.mp htv
      refine ⟨sortStrings (valuesFor ((pairsOf records).map Prod.swap) t).dedup,
        sortStrings_sorted _, groupKeys_nodup _, fun q => ?_, rfl⟩
      rw [mem_sortStrings, List.mem_dedup, mem_valuesFor, mem_map_swap]

theorem listing_reports_sorted_joined_witness :
    (process_psl_file [mkRec "p1" "t1" "3", mkRec "p1" "t2" "4", mkRec "p2" "t1" "5"] =
      .ok (buildReports (pairsOf
        [mkRec "p1" "t1" "3", mkRec "p1" "t2" "4", mkRec "p2" "t1" "5"]))) ∧
    ∀ pv ∈ (buildReports (pairsOf
        [mkRec "p1" "t1" "3", mkRec "p1" "t2" "4", mkRec "p2" "t1" "5"])).probeToTargets,
      ∃ l : List String, l.Sorted (· ≤ ·) ∧ l.Nodup ∧
        (∀ t, t ∈ l ↔ (pv.1, t) ∈ pairsOf
          [mkRec "p1" "t1" "3", mkRec "p1" "t2" "4", mkRec "p2" "t1" "5"]) ∧
        pv.2 = String.intercalate ", " l :=
  ⟨process_ok_iff.mpr ⟨by decide, rfl⟩,
    (listing_reports_sorted_joined _ _ (process_ok_iff.mpr ⟨by decide, rfl⟩)).1.2.2.2⟩

theorem swap_fst (l : List (String × String)) :
    (l.map Prod.swap).map Prod.fst = l.map Prod.snd := by
  simp [List.map_map]

theorem commaEntries_row (pairs : List (String × String)) (k : String)
    (hk : k ∈ pairs.map Prod.fst)
    (hfree : ∀ x ∈ valuesFor pairs k, sepFree x) :
    commaEntries (String.intercalate ", " (sortStrings (valuesFor pairs k).dedup)) =
      sortStrings (valuesFor pairs k).dedup := by
  apply commaEntries_intercalate
  · obtain ⟨⟨a, b⟩, hm, ha⟩ := List.mem_map.mp hk
    obtain rfl : a = k := ha
    have hb : b ∈ valuesFor pairs a := mem_valuesFor.mpr hm
    exact List.ne_nil_of_mem (mem_sortStrings.mpr (List.mem_dedup.mpr hb))
  · intro s hs
    rw [mem_sortStrings, List.mem_dedup] at hs
    exact hfree s hs

theorem probe_values_sepFree (records : List AlignmentRecord)
    (hfree : ∀ r ∈ records, sepFree r.qName ∧ sepFree r.tName) (t : String) :
    ∀ x ∈ valuesFor ((pairsOf records).map Prod.swap) t, sepFree x := by
  intro x hx
  rw [mem_valuesFor, mem_map_swap, mem_pairsOf] at hx
  obtain ⟨r, hr, rfl, -⟩ := hx
  exact (hfree r hr).1

theorem target_values_sepFree (records : List AlignmentRecord)
    (hfree : ∀ r ∈ records, sepFree r.qName ∧ sepFree r.tName) (p : String) :
    ∀ x ∈ valuesFor (pairsOf records) p, sepFree x := by
  intro x hx
  rw [mem_valuesFor, mem_pairsOf] at hx
  obtain ⟨r, hr, -, rfl⟩ := hx
  exact (hfree r hr).2

/-- C7 as stated fails when an identifier contains the separator: with
probe ids "a" and "b, c" both hitting target "t", `TargetCounts` stores
2 while the joined `TargetToProbes` value "a, b, c" has 3
comma-separated entries. -/
theorem count_vs_entries_counterexample :
    process_psl_file sepRecords = .ok sepReports ∧
      ("t", 2) ∈ sepReports.targetCounts ∧
      ("t", "a, b, c") ∈ sepReports.targetToProbes ∧
      (commaEntries "a, b, c").length ≠ 2 :=
  ⟨by decide, by decide, by decide, by decide⟩

/-- C7 amended: provided no probe id and no target id contains the
separator `", "`, each count report entry equals the number of
comma-separated entries of the matching listing-report value. -/
theorem count_matches_entries_of_sepFree (records : List AlignmentRecord)
    (rep : Reports) (hok : process_psl_file records = .ok rep)
    (hfree : ∀ r ∈ records, sepFree r.qName ∧ sepFree r.tName) :
    (∀ tn ∈ rep.targetCounts, ∀ ts ∈ rep.targetToProbes,
      tn.1 = ts.1 → (commaEntries ts.2).length = tn.2) ∧
    (∀ pn ∈ rep.probeCounts, ∀ ps ∈ rep.probeToTargets,
      pn.1 = ps.1 → (commaEntries ps.2).length = pn.2) := by
  obtain ⟨-, rfl⟩ := process_ok_iff.mp hok
  constructor
  · rw [buildReports_targetCounts, buildReports_targetToProbes]
    intro tn htn ts hts heq
    obtain ⟨t, ht, rfl⟩ := List.mem_map.mp htn
    obtain ⟨t', ht', rfl⟩ := List.mem_map.mp hts
    obtain rfl : t = t' := heq
    rw [commaEntries_row]
    · exact (sortStrings_perm _).length_eq
    · rw [swap_fst]
      exact mem_groupKeys.mp ht
    · exact probe_values_sepFree records hfree t
  · rw [buildReports_probeCounts, buildReports_probeToTargets]
    intro pn hpn ps hps heq
    obtain ⟨p, hp, rfl⟩ := List.mem_map.mp hpn
    obtain ⟨p', hp', rfl⟩ := List.mem_map.mp hps
    obtain rfl : p = p' := heq
    rw [commaEntries_row]
    · exact (sortStrings_perm _).length_eq
    · exact mem_groupKeys.mp hp
    · exact target_values_sepFree records hfree p

theorem count_matches_entries_of_sepFree_witness :
    (∀ r ∈ [mkRec "p1" "t1" "3", mkRec "p2" "t1" "4"],
      sepFree r.qName ∧ sepFree r.tName) ∧
    ∀ tn ∈ (buildReports (pairsOf [mkRec "p1" "t1" "3", mkRec "p2" "t1" "4"])).targetCounts,
      ∀ ts ∈ (buildReports (pairsOf [mkRec "p1" "t1" "3", mkRec "p2" "t1" "4"])).targetToProbes,
        tn.1 = ts.1 → (commaEntries ts.2).length = tn.2 :=
  ⟨by decide,
    (count_matches_entries_of_sepFree _ _ (process_ok_iff.mpr ⟨by decide, rfl⟩)
      (by decide)).1⟩

/-- C8 as stated fails when an identifier contains the separator: probe
"b, c" aligns to target "t", and "t" is among the entries of its
`ProbeToTargets` value, yet "b, c" is not among the entries of the
`TargetToProbes` value of "t". -/
theorem membership_symmetry_counterexample :
    process_psl_file sepRecords = .ok sepReports ∧
      sepReports.targetToProbes = [("t", "a, b, c")] ∧
      "b, c" ∉ commaEntries "a, b, c" ∧
      ("b, c", "t") ∈ sepReports.probeToTargets ∧
      "t" ∈ commaEntries "t" :=
  ⟨by decide, by decide, by decide, by decide, by decide⟩

/-- C8 amended: provided no probe id and no target id contains the
separator `", "`, a probe id appears among the comma-separated entries
of the `TargetToProbes` row of a target id exactly when the target id
appears among the entries of the `ProbeToTargets` row of that probe. -/
theorem membership_symmetry_of_sepFree (records : List AlignmentRecord)
    (rep : Reports) (hok : process_psl_file records = .ok rep)
    (hfree : ∀ r ∈ records, sepFree r.qName ∧ sepFree r.tName) :
    ∀ p t : String,
      (∃ s, (t, s) ∈ rep.targetToProbes ∧ p ∈ commaEntries s) ↔
        (∃ s, (p, s) ∈ rep.probeToTargets ∧ t ∈ commaEntries s) := by
  obtain ⟨-, rfl⟩ := process_ok_iff.mp hok
  intro p t
  rw [buildReports_targetToProbes, buildReports_probeToTargets]
  have hleft : (∃ s, (t, s) ∈ (groupKeys ((pairsOf records).map Prod.snd)).map
        (fun x => (x, String.intercalate ", "
          (sortStrings (valuesFor ((pairsOf records).map Prod.swap) x).dedup))) ∧
      p ∈ commaEntries s) ↔ (p, t) ∈ pairsOf records := by
    constructor
    · rintro ⟨s, hmem, hp⟩
      rw [mem_key_map] at hmem
      obtain ⟨ht, rfl⟩ := hmem
      rw [commaEntries_row] at hp
      · rwa [mem_sortStrings, List.mem_dedup, mem_valuesFor, mem_map_swap] at hp
      · rw [swap_fst]
        exact mem_groupKeys.mp ht
      · exact probe_values_sepFree records hfree t
    · intro hpt
      have ht : t ∈ (pairsOf records).map Prod.snd := List.mem_map_of_mem Prod.snd hpt
      refine ⟨_, mem_key_map.mpr ⟨mem_groupKeys.mpr ht, rfl⟩, ?_⟩
      rw [commaEntries_row]
      · rw [mem_sortStrings, List.mem_dedup, mem_valuesFor, mem_map_swap]
        exact hpt
      · rw [swap_fst]
        exact ht
      · exact probe_values_sepFree records hfree t
  have hright : (∃ s, (p, s) ∈ (groupKeys ((pairsOf records).map Prod.fst)).map
        (fun x => (x, String.intercalate ", "
          (sortStrings (valuesFor (pairsOf records) x).dedup))) ∧
      t ∈ commaEntries s) ↔ (p, t) ∈ pairsOf records := by
    constructor
    · rintro ⟨s, hmem, htc⟩
      rw [mem_key_map] at hmem
      obtain ⟨hp, rfl⟩ := hmem
      rw [commaEntries_row] at htc
      · rwa [mem_sortStrings, List.mem_dedup, mem_valuesFor] at htc
      · exact mem_groupKeys.mp hp
      · exact target_values_sepFree records hfree p
    · intro hpt
      have hp : p ∈ (pairsOf records).map Prod.fst := List.mem_map_of_mem Prod.fst hpt
      refine ⟨_, mem_key_map.mpr ⟨mem_groupKeys.mpr hp, rfl⟩, ?_⟩
      rw [commaEntries_row]
      · rw [mem_sortStrings, List.mem_dedup, mem_valuesFor]
        exact hpt
      · exact hp
      · exact target_values_sepFree records hfree p
  rw [hleft, hright]

theorem membership_symmetry_of_sepFree_witness :
    (∀ r ∈ [mkRec "p1" "t1" "3", mkRec "p1" "t2" "4"],
      sepFree r.qName ∧ sepFree r.tName) ∧
      ((∃ s, ("t2", s) ∈ (buildReports (pairsOf
            [mkRec "p1" "t1" "3", mkRec "p1" "t2" "4"])).targetToProbes ∧
          "p1" ∈ commaEntries s) ↔
        (∃ s, ("p1", s) ∈ (buildReports (pairsOf
            [mkRec "p1" "t1" "3", mkRec "p1" "t2" "4"])).probeToTargets ∧
          "t2" ∈ commaEntries s)) :=
  ⟨by decide,
    membership_symmetry_of_sepFree _ _ (process_ok_iff.mpr ⟨by decide, rfl⟩)
      (by decide) "p1" "t2"⟩
